import Mathlib

/-!
Verification of the core probability engine of `arcs-calculator`
(`src/arcs_funcs.py`) against its natural-language specification.

The shallow embedding below translates the dice model, the outcome
resolver `parse_dice`, the adjusted multinomial coefficient, the
enumerator `compute_probabilities` and the bounds evaluator
`evaluate_truth_table` into executable Lean definitions.  Python's
exact integer/float arithmetic on the small values involved is
modelled by exact rational arithmetic (`ℚ`); fallible code returns
`Except String`.
-/

namespace Arcs

/-- Symbols that can appear on a die face.  The set is closed
(`arcs_funcs.py` lines 205-228); the `NotImplementedError` branch for
an unknown symbol is therefore unreachable in the embedding. -/
inductive Symbol where
  | hit
  | flame
  | intercept
  | blank
  | hitb
  | key
deriving DecidableEq, Repr, Fintype

/-- A die face is a tuple of symbols (`arcs_funcs.py` lines 129-164). -/
abbrev Face := List Symbol

/-- Skirmish die faces, `arcs_funcs.py` lines 129-132.  The physical
six-sided die is represented by a statistically identical two-faced
die (see the comment on line 132 of the source). -/
def SKIRMISH_DICE : List Face := [[Symbol.blank], [Symbol.hit]]

/-- Assault die faces, `arcs_funcs.py` lines 134-141. -/
def ASSAULT_DICE : List Face :=
  [[Symbol.hit, Symbol.flame],
   [Symbol.hit, Symbol.hit],
   [Symbol.hit, Symbol.hit, Symbol.flame],
   [Symbol.blank],
   [Symbol.hit, Symbol.intercept],
   [Symbol.hit, Symbol.flame]]

/-- Deduplicated assault faces, `arcs_funcs.py` lines 142-148. -/
def UNIQUE_ASSAULT_DICE : List Face :=
  [[Symbol.hit, Symbol.flame],
   [Symbol.hit, Symbol.hit],
   [Symbol.hit, Symbol.hit, Symbol.flame],
   [Symbol.blank],
   [Symbol.hit, Symbol.intercept]]

/-- Raid die faces, `arcs_funcs.py` lines 150-157. -/
def RAID_DICE : List Face :=
  [[Symbol.hitb, Symbol.flame],
   [Symbol.intercept],
   [Symbol.intercept, Symbol.key, Symbol.key],
   [Symbol.key, Symbol.flame],
   [Symbol.key, Symbol.hitb],
   [Symbol.hitb, Symbol.flame]]

/-- Deduplicated raid faces, `arcs_funcs.py` lines 158-164. -/
def UNIQUE_RAID_DICE : List Face :=
  [[Symbol.hitb, Symbol.flame],
   [Symbol.intercept],
   [Symbol.intercept, Symbol.key, Symbol.key],
   [Symbol.key, Symbol.flame],
   [Symbol.key, Symbol.hitb]]

/-- Frequency table, `arcs_funcs.py` lines 166-170: `Counter(dice)[face]`
is the number of occurrences of `face` in the full six-face list of the
die type named by `dice_str`. -/
def FACE_FREQUENCIES (dice_str : String) (face : Face) : ℕ :=
  if dice_str = "skirmish" then SKIRMISH_DICE.count face
  else if dice_str = "assault" then ASSAULT_DICE.count face
  else RAID_DICE.count face

/-- Helper for `cwr`: combinations with replacement drawn from a pool
whose head is `x` and whose tail pool yields `tailCwr`.  Structured so
that all recursion is structural (kernel-reducible). -/
def cwrCons (x : Face) (tailCwr : ℕ → List (List Face)) : ℕ → List (List Face)
  | 0 => [[]]
  | n + 1 => ((cwrCons x tailCwr n).map (fun c => x :: c)) ++ tailCwr (n + 1)

/-- Embedding of `itertools.combinations_with_replacement(pool, r=n)`
(used in `arcs_funcs.py` lines 351-364): all length-`n` selections from
`pool` with non-decreasing indices, in lexicographic index order. -/
def cwr : List Face → ℕ → List (List Face)
  | [], 0 => [[]]
  | [], _ + 1 => []
  | x :: xs, n => cwrCons x (cwr xs) n

/-- Flattening helper (embedding of Python nested iteration). -/
def concatMap {α β : Type} (f : α → List β) : List α → List β
  | [] => []
  | x :: xs => f x ++ concatMap f xs

/-- Worker for `adjusted_multinomial_coefficient`, generalized over the
frequency table.  Mirrors `arcs_funcs.py` lines 326-341: starting from
`N!` the code divides by `k!` for every multiplicity `k` in
`Counter(combination)` and multiplies by `frequency ** k` for every
distinct face; `Counter` iteration over distinct faces is modelled by
`List.dedup` (iteration order is irrelevant for a commutative product).
Python's exact small-number float arithmetic is modelled by `ℚ`. -/
def amcW (freqf : Face → ℕ) (c : List Face) : ℚ :=
  ((Nat.factorial c.length : ℚ)
      / ((c.dedup.map (fun f => (Nat.factorial (c.count f) : ℚ))).prod))
    * ((c.dedup.map (fun f => (freqf f : ℚ) ^ (c.count f))).prod)

/-- Embedding of `adjusted_multinomial_coefficient(combination, dice_str)`,
`arcs_funcs.py` lines 326-341. -/
def adjusted_multinomial_coefficient (combination : List Face) (dice_str : String) : ℚ :=
  amcW (FACE_FREQUENCIES dice_str) combination

/-- One iteration of the triple nested loop in `compute_probabilities`
(`arcs_funcs.py` lines 351-368): a skirmish combination, an assault
combination and a raid combination. -/
abbrev RollTuple := (List Face) × (List Face) × (List Face)

/-- All cross-product tuples visited by the triple nested loop of
`compute_probabilities`, in iteration order. -/
def allTuples (num_skirmish num_assault num_raid : ℕ) : List RollTuple :=
  concatMap
    (fun cs => concatMap
      (fun ca => (cwr UNIQUE_RAID_DICE num_raid).map (fun cr => (cs, ca, cr)))
      (cwr UNIQUE_ASSAULT_DICE num_assault))
    (cwr SKIRMISH_DICE num_skirmish)

/-- Microstate weight of one tuple: the product of the three adjusted
multinomial coefficients (`arcs_funcs.py` lines 371-373). -/
def tupleWeight (t : RollTuple) : ℚ :=
  adjusted_multinomial_coefficient t.1 "skirmish"
    * adjusted_multinomial_coefficient t.2.1 "assault"
    * adjusted_multinomial_coefficient t.2.2 "raid"

/-- The running grand total `total_states` accumulated by
`compute_probabilities` (`arcs_funcs.py` line 377). -/
def total_states (num_skirmish num_assault num_raid : ℕ) : ℚ :=
  ((allTuples num_skirmish num_assault num_raid).map tupleWeight).sum

/-- The mutable accumulator of `parse_dice` (`arcs_funcs.py` lines
196-201). -/
structure RollAcc where
  hits : ℕ
  hitbs : ℕ
  damage : ℕ
  keys : ℕ
  intercepts : Bool
  blanks : ℕ
deriving DecidableEq, Repr

/-- Accumulator initial state (all counters zero, no intercept seen). -/
def RollAcc.init : RollAcc :=
  { hits := 0, hitbs := 0, damage := 0, keys := 0, intercepts := false, blanks := 0 }

/-- One step of the symbol loop of `parse_dice` (`arcs_funcs.py` lines
204-228).  On `intercept`: if one was already processed, skip;
otherwise record it and, when `convert_intercepts` is set, add
`fresh_targets` to the damage counter, failing when `fresh_targets` is
unset.  The `NotImplementedError` branch is unreachable because
`Symbol` is a closed enumeration. -/
def parseSymbol (fresh_targets : Option ℕ) (convert_intercepts : Bool)
    (a : RollAcc) : Symbol → Except String RollAcc
  | Symbol.hit => Except.ok { a with hits := a.hits + 1 }
  | Symbol.flame => Except.ok { a with damage := a.damage + 1 }
  | Symbol.intercept =>
    if a.intercepts = true then Except.ok a
    else if convert_intercepts = true then
      match fresh_targets with
      | none => Except.error "Cannot convert intercepts if fresh targets not set"
      | some n => Except.ok { a with intercepts := true, damage := a.damage + n }
    else Except.ok { a with intercepts := true }
  | Symbol.blank => Except.ok { a with blanks := a.blanks + 1 }
  | Symbol.hitb => Except.ok { a with hitbs := a.hitbs + 1 }
  | Symbol.key => Except.ok { a with keys := a.keys + 1 }

/-- The symbol loop of `parse_dice`, folding `parseSymbol` over every
symbol of every drawn face in iteration order. -/
def runSymbols (fresh_targets : Option ℕ) (convert_intercepts : Bool) :
    RollAcc → List Symbol → Except String RollAcc
  | a, [] => Except.ok a
  | a, s :: rest =>
    match parseSymbol fresh_targets convert_intercepts a s with
    | Except.error e => Except.error e
    | Except.ok a2 => runSymbols fresh_targets convert_intercepts a2 rest

/-- Closed form of the final accumulator: every counter is the count of
its symbol, damage additionally receives `fresh_targets` when an
intercept is converted, and the intercept flag records membership. -/
def accOf (fresh_targets : Option ℕ) (convert_intercepts : Bool)
    (syms : List Symbol) : RollAcc :=
  { hits := syms.count Symbol.hit
    hitbs := syms.count Symbol.hitb
    damage := syms.count Symbol.flame
      + (if Symbol.intercept ∈ syms ∧ convert_intercepts = true
          then fresh_targets.getD 0 else 0)
    keys := syms.count Symbol.key
    intercepts := decide (Symbol.intercept ∈ syms)
    blanks := syms.count Symbol.blank }

/-- Closed form of the whole symbol loop started from an arbitrary
accumulator. -/
def runResult (fresh_targets : Option ℕ) (convert_intercepts : Bool)
    (a : RollAcc) (syms : List Symbol) : Except String RollAcc :=
  if convert_intercepts = true ∧ fresh_targets = none ∧ a.intercepts = false
      ∧ Symbol.intercept ∈ syms then
    Except.error "Cannot convert intercepts if fresh targets not set"
  else
    Except.ok
      { hits := a.hits + syms.count Symbol.hit
        hitbs := a.hitbs + syms.count Symbol.hitb
        damage := a.damage + syms.count Symbol.flame
          + (if a.intercepts = false ∧ Symbol.intercept ∈ syms
                ∧ convert_intercepts = true
              then fresh_targets.getD 0 else 0)
        keys := a.keys + syms.count Symbol.key
        intercepts := a.intercepts || decide (Symbol.intercept ∈ syms)
        blanks := a.blanks + syms.count Symbol.blank }

/-- Flattened symbol stream of the three drawn combinations, in the
iteration order of `parse_dice` (skirmish, then assault, then raid,
each face in order). -/
def symbolsOf (sc ac rc : List Face) : List Symbol :=
  concatMap (fun face => face) (sc ++ ac ++ rc)

/-- Serialization of a resolved accumulator into the canonical
OutcomeKey: a `{count}{LETTER}` segment per nonzero field in the fixed
order H, B, D, K, an `I` marker iff an intercept was seen and
`convert_intercepts` is false, and the sentinel `"0"` when nothing was
emitted (`arcs_funcs.py` lines 230-267, uniform emission branch). -/
def outcome_key_format (a : RollAcc) (convert_intercepts : Bool) : String :=
  let parts : List String :=
    ((if 0 < a.hits then [toString a.hits ++ "H"] else [])
        ++ (if 0 < a.hitbs then [toString a.hitbs ++ "B"] else [])
        ++ (if 0 < a.damage then [toString a.damage ++ "D"] else [])
        ++ (if 0 < a.keys then [toString a.keys ++ "K"] else []))
      ++ (if a.intercepts = true ∧ convert_intercepts = false then ["I"] else [])
  if parts.isEmpty then "0" else String.join parts

/-- Embedding of `parse_dice` (`arcs_funcs.py` lines 173-267).  The
internal `roll_dict` always carries the three keys `skirmish`,
`assault` and `raid` (lines 176-178), regardless of whether the
combinations are empty; the emission branch is selected from the key
set exactly as in lines 232-262. -/
def parse_dice (skirmish_combination assault_combination raid_combination : List Face)
    (fresh_targets : Option ℕ) (convert_intercepts : Bool) : Except String String :=
  let roll_dict : List (String × List Face) :=
    [("skirmish", skirmish_combination), ("assault", assault_combination),
      ("raid", raid_combination)]
  match runSymbols fresh_targets convert_intercepts RollAcc.init
      (concatMap (fun kv => concatMap (fun face => face) kv.2) roll_dict) with
  | Except.error e => Except.error e
  | Except.ok a =>
    let dice : Finset String := (roll_dict.map Prod.fst).toFinset
    let parts : List String :=
      if dice = {"skirmish"} then
        -- line 234 also asserts `intercepts is False` here; the branch is
        -- unreachable because `roll_dict` carries all three keys
        (if 0 < a.hits then [toString a.hits ++ "H"] else [])
      else if dice = {"raid"} then
        (if 0 < a.hitbs then [toString a.hitbs ++ "B"] else [])
          ++ (if 0 < a.damage then [toString a.damage ++ "D"] else [])
          ++ (if 0 < a.keys then [toString a.keys ++ "K"] else [])
      else if "raid" ∈ dice then
        (if 0 < a.hits then [toString a.hits ++ "H"] else [])
          ++ (if 0 < a.hitbs then [toString a.hitbs ++ "B"] else [])
          ++ (if 0 < a.damage then [toString a.damage ++ "D"] else [])
          ++ (if 0 < a.keys then [toString a.keys ++ "K"] else [])
      else
        -- line 258 asserts `assault ∈ dice` here; again unreachable
        (if 0 < a.hits then [toString a.hits ++ "H"] else [])
          ++ (if 0 < a.damage then [toString a.damage ++ "D"] else [])
    let parts2 := parts
      ++ (if a.intercepts = true ∧ convert_intercepts = false then ["I"] else [])
    Except.ok (if parts2.isEmpty then "0" else String.join parts2)

/-- The outcome key assigned to one enumeration tuple (total function;
meaningful whenever `parse_dice` does not raise on the tuple). -/
def pdKey (ft : Option ℕ) (ci : Bool) (t : RollTuple) : String :=
  outcome_key_format (accOf ft ci (symbolsOf t.1 t.2.1 t.2.2)) ci

/-- The error condition of `parse_dice` on one tuple. -/
def pdErr (ft : Option ℕ) (ci : Bool) (t : RollTuple) : Prop :=
  ci = true ∧ ft = none ∧ Symbol.intercept ∈ symbolsOf t.1 t.2.1 t.2.2

instance (ft : Option ℕ) (ci : Bool) (t : RollTuple) : Decidable (pdErr ft ci t) := by
  unfold pdErr
  infer_instance

/-- Parse and weigh every tuple in iteration order, propagating the
first `parse_dice` error exactly as the Python exception aborts the
enumeration loop.  (The source interleaves parsing with accumulation;
the resulting dictionary and error behaviour are identical.) -/
def parseTuples (ft : Option ℕ) (ci : Bool) : List RollTuple → Except String (List (String × ℚ))
  | [] => Except.ok []
  | t :: ts =>
    match parse_dice t.1 t.2.1 t.2.2 ft ci with
    | Except.error e => Except.error e
    | Except.ok k =>
      match parseTuples ft ci ts with
      | Except.error e => Except.error e
      | Except.ok rest => Except.ok ((k, tupleWeight t) :: rest)

/-- Insertion-ordered dictionary update, the embedding of
`macrostates_dict[k] = macrostates_dict.get(k, 0) + w`
(`arcs_funcs.py` lines 375-376): add to the existing entry or append a
new one at the end, preserving Python dict insertion order. -/
def dictAdd : List (String × ℚ) → String → ℚ → List (String × ℚ)
  | [], k, w => [(k, w)]
  | (k2, w2) :: rest, k, w =>
    if k2 = k then (k2, w2 + w) :: rest else (k2, w2) :: dictAdd rest k w

/-- Dictionary lookup with default 0 (`macrostates_dict.get(k, 0)`). -/
def lookupD : List (String × ℚ) → String → ℚ
  | [], _ => 0
  | (k2, w) :: rest, k => if k2 = k then w else lookupD rest k

/-- The aggregation dictionary built from the keyed weights in
iteration order. -/
def buildDict (kws : List (String × ℚ)) : List (String × ℚ) :=
  kws.foldl (fun d kw => dictAdd d kw.1 kw.2) []

/-- Weight aggregated for key `k` by a list of keyed weights. -/
def aggOf (kws : List (String × ℚ)) (k : String) : ℚ :=
  ((kws.filter (fun kv => decide (kv.1 = k))).map Prod.snd).sum

/-- Stable insertion into a sorted list: the new element goes after
every element that is `le` it, so elements comparing equal keep their
original relative order (Python's `sorted` is stable). -/
def insertSorted {α : Type} (le : α → α → Bool) (x : α) : List α → List α
  | [] => [x]
  | y :: ys => if le y x then y :: insertSorted le x ys else x :: y :: ys

/-- Embedding of Python's `sorted` (`arcs_funcs.py` lines 382-386) as a
stable insertion sort. -/
def pySorted {α : Type} (le : α → α → Bool) (l : List α) : List α :=
  l.foldl (fun acc x => insertSorted le x acc) []

/-- Keyed weights of every enumeration tuple, in iteration order (the
successful outcome of `parseTuples`). -/
def kwsOf (ns na nr : ℕ) (ft : Option ℕ) (ci : Bool) : List (String × ℚ) :=
  (allTuples ns na nr).map (fun t => (pdKey ft ci t, tupleWeight t))

/-- Aggregated microstate weight of the outcome key `k`: the sum of the
weights of all enumeration tuples that resolve to `k`. -/
def aggWeight (ns na nr : ℕ) (ft : Option ℕ) (ci : Bool) (k : String) : ℚ :=
  aggOf (kwsOf ns na nr ft ci) k

/-- Embedding of `compute_probabilities` (`arcs_funcs.py` lines
344-389): enumerate the cross product of per-pool combinations, resolve
and weigh each tuple, aggregate weights per outcome key in a dict,
check the grand-total assertion of line 380, normalize, and return the
keys sorted ascending by their weight together with the probabilities
sorted ascending (two separately sorted lists, as in lines 382-386).
The timing diagnostics and `loop_count` of the source are not part of
the correctness contract and are omitted. -/
def compute_probabilities (num_skirmish num_assault num_raid : ℕ)
    (fresh_targets : Option ℕ) (convert_intercepts : Bool) :
    Except String (List String × List ℚ) :=
  match parseTuples fresh_targets convert_intercepts
      (allTuples num_skirmish num_assault num_raid) with
  | Except.error e => Except.error e
  | Except.ok kws =>
    let macrostates_dict := buildDict kws
    let total_states := (kws.map Prod.snd).sum
    if total_states = 2 ^ num_skirmish * 6 ^ (num_assault + num_raid) then
      let sorted_macrostates := pySorted
        (fun k1 k2 => decide (lookupD macrostates_dict k1 ≤ lookupD macrostates_dict k2))
        (macrostates_dict.map Prod.fst)
      let sorted_probs := pySorted (fun p q => decide (p ≤ q))
        (macrostates_dict.map (fun kv => kv.2 / total_states))
      Except.ok (sorted_macrostates, sorted_probs)
    else Except.error "AssertionError"

/-- Embedding of `evaluate_truth_table` (`arcs_funcs.py` lines
270-288): five optional bounds, each checked only when supplied, any
violation returns `False`, otherwise `True`. -/
def evaluate_truth_table (hits damage buildings keys : ℕ)
    (min_hits max_damage min_keys min_building_hits max_building_hits : Option ℕ) : Bool :=
  if min_hits.any (fun m => decide (hits < m)) then false
  else if max_damage.any (fun m => decide (damage > m)) then false
  else if min_keys.any (fun m => decide (keys < m)) then false
  else if min_building_hits.any (fun m => decide (buildings < m)) then false
  else if max_building_hits.any (fun m => decide (buildings > m)) then false
  else true

/-- Bounds record as described by the spec (§4.4, §6): eight optional
fields, min and max for each of the four outcome dimensions.  This
definition follows the wording of the spec, for comparison with
`evaluate_truth_table` from the source. -/
structure SpecBounds where
  min_hits : Option ℕ
  max_hits : Option ℕ
  min_damage : Option ℕ
  max_damage : Option ℕ
  min_keys : Option ℕ
  max_keys : Option ℕ
  min_building_hits : Option ℕ
  max_building_hits : Option ℕ
deriving DecidableEq, Repr

/-- Bounds evaluation as described by the spec (§4.4 Operation A):
true iff every supplied bound of the eight-field record is satisfied;
unsupplied bounds impose no constraint.  This definition follows the
wording of the spec, for comparison with `evaluate_truth_table` from
the source. -/
def evaluate_bounds_spec (hits damage buildings keys : ℕ) (b : SpecBounds) : Bool :=
  b.min_hits.all (fun m => decide (m ≤ hits))
    && b.max_hits.all (fun m => decide (hits ≤ m))
    && b.min_damage.all (fun m => decide (m ≤ damage))
    && b.max_damage.all (fun m => decide (damage ≤ m))
    && b.min_keys.all (fun m => decide (m ≤ keys))
    && b.max_keys.all (fun m => decide (keys ≤ m))
    && b.min_building_hits.all (fun m => decide (m ≤ buildings))
    && b.max_building_hits.all (fun m => decide (buildings ≤ m))



theorem cwr_zero (L : List Face) : cwr L 0 = [[]] := by
  cases L <;> rfl

theorem cwr_cons (x : Face) (xs : List Face) (n : ℕ) :
    cwr (x :: xs) n = cwrCons x (cwr xs) n := rfl

/-- Every selection produced by `cwrCons` has the right length and draws
only from `{x} ∪` the tail pool. -/
theorem cwrCons_length_mem (x : Face) (tailCwr : ℕ → List (List Face)) (P : Face → Prop)
    (htail : ∀ m c, c ∈ tailCwr m → c.length = m ∧ ∀ f ∈ c, P f) (hx : P x) :
    ∀ n c, c ∈ cwrCons x tailCwr n → c.length = n ∧ ∀ f ∈ c, P f := by
  intro n
  induction n with
  | zero =>
    intro c hc
    simp only [cwrCons, List.mem_singleton] at hc
    subst hc
    exact ⟨rfl, by intro f hf; cases hf⟩
  | succ n ih =>
    intro c hc
    simp only [cwrCons, List.mem_append, List.mem_map] at hc
    rcases hc with ⟨c₀, hc₀, rfl⟩ | hc
    · obtain ⟨hlen, hmem⟩ := ih c₀ hc₀
      refine ⟨by simp [hlen], ?_⟩
      intro f hf
      rcases List.mem_cons.mp hf with rfl | hf
      · exact hx
      · exact hmem f hf
    · exact htail (n + 1) c hc

/-- Every selection produced by `cwr L n` has length `n` and draws only
from the pool `L`. -/
theorem cwr_length_mem :
    ∀ (L : List Face) (n : ℕ) (c : List Face), c ∈ cwr L n →
      c.length = n ∧ ∀ f ∈ c, f ∈ L := by
  intro L
  induction L with
  | nil =>
    intro n c hc
    cases n with
    | zero =>
      simp only [cwr, List.mem_singleton] at hc
      subst hc
      exact ⟨rfl, by intro f hf; cases hf⟩
    | succ n => cases hc
  | cons x xs ih =>
    intro n c hc
    rw [cwr_cons] at hc
    exact cwrCons_length_mem x (cwr xs) (fun f => f ∈ x :: xs)
      (fun m c hmc => ⟨(ih m c hmc).1, fun f hf => List.mem_cons_of_mem x ((ih m c hmc).2 f hf)⟩)
      (List.mem_cons_self x xs) n c hc

/-- A constant selection `replicate n x` is enumerated whenever `x` is
in the pool. -/
theorem replicate_mem_cwr :
    ∀ (L : List Face) (x : Face), x ∈ L → ∀ n, List.replicate n x ∈ cwr L n := by
  intro L
  induction L with
  | nil => intro x hx; cases hx
  | cons y ys ih =>
    intro x hx n
    rcases List.mem_cons.mp hx with rfl | hx
    · rw [cwr_cons]
      induction n with
      | zero => simp [cwrCons]
      | succ n ihn =>
        simp only [cwrCons, List.mem_append, List.mem_map]
        exact Or.inl ⟨List.replicate n x, ihn, (List.replicate_succ x n).symm⟩
    · cases n with
      | zero => rw [cwr_zero]; simp
      | succ n =>
        rw [cwr_cons]
        simp only [cwrCons, List.mem_append]
        exact Or.inr (ih x hx (n + 1))

theorem concatMap_append {α β : Type} (f : α → List β) (l₁ l₂ : List α) :
    concatMap f (l₁ ++ l₂) = concatMap f l₁ ++ concatMap f l₂ := by
  induction l₁ with
  | nil => rfl
  | cons x xs ih => simp [concatMap, ih]

theorem mem_concatMap {α β : Type} (f : α → List β) (l : List α) (b : β) :
    b ∈ concatMap f l ↔ ∃ a ∈ l, b ∈ f a := by
  induction l with
  | nil => simp [concatMap]
  | cons x xs ih => simp [concatMap, ih]

theorem count_concatMap {α β : Type} [DecidableEq β] (f : α → List β) (l : List α) (b : β) :
    (concatMap f l).count b = (l.map (fun a => (f a).count b)).sum := by
  induction l with
  | nil => rfl
  | cons x xs ih => simp [concatMap, List.count_append, ih]

theorem sum_map_concatMap {α β : Type} (f : α → List β) (g : β → ℚ) (l : List α) :
    ((concatMap f l).map g).sum = (l.map (fun a => ((f a).map g).sum)).sum := by
  induction l with
  | nil => rfl
  | cons x xs ih => simp [concatMap, ih]

theorem dedup_toFinset (c : List Face) : c.dedup.toFinset = c.toFinset := by
  ext a; simp [List.mem_toFinset, List.mem_dedup]

/-- Finset reformulation of the products over distinct faces. -/
theorem amcW_eq_finset (freqf : Face → ℕ) (c : List Face) :
    amcW freqf c
      = ((Nat.factorial c.length : ℚ)
          / (∏ f in c.toFinset, (Nat.factorial (c.count f) : ℚ)))
        * (∏ f in c.toFinset, (freqf f : ℚ) ^ (c.count f)) := by
  rw [amcW, ← List.prod_toFinset _ (List.nodup_dedup c),
    ← List.prod_toFinset _ (List.nodup_dedup c), dedup_toFinset]

theorem amcW_nil (freqf : Face → ℕ) : amcW freqf [] = 1 := by
  simp [amcW, Nat.factorial]

theorem prod_count_factorial_ne_zero (c : List Face) :
    (∏ f in c.toFinset, (Nat.factorial (c.count f) : ℚ)) ≠ 0 := by
  refine Finset.prod_ne_zero_iff.mpr ?_
  intro f _
  exact_mod_cast Nat.factorial_ne_zero (c.count f)

/-- Pull-out identity: prepending `k` copies of a face `x` that does not
occur in `c` multiplies the adjusted coefficient by
`choose (k + |c|) k * freq(x) ^ k`. -/
theorem amcW_replicate_append (freqf : Face → ℕ) (x : Face) (c : List Face)
    (hx : x ∉ c) (k : ℕ) :
    amcW freqf (List.replicate k x ++ c)
      = (Nat.choose (k + c.length) k : ℚ) * (freqf x : ℚ) ^ k * amcW freqf c := by
  cases k with
  | zero => simp
  | succ j =>
    have hxf : x ∉ c.toFinset := by simpa [List.mem_toFinset] using hx
    have htf : (List.replicate (j + 1) x ++ c).toFinset = insert x c.toFinset := by
      ext a
      simp [List.mem_toFinset, List.mem_replicate]
    have hcx : (List.replicate (j + 1) x ++ c).count x = j + 1 := by
      rw [List.count_append, List.count_replicate, List.count_eq_zero.mpr hx]
      simp
    have hca : ∀ a ∈ c.toFinset, (List.replicate (j + 1) x ++ c).count a = c.count a := by
      intro a ha
      have hax : x ≠ a := by
        intro h; exact hxf (h ▸ ha)
      rw [List.count_append, List.count_replicate, if_neg (by simpa using hax)]
      simp
    have hlen : (List.replicate (j + 1) x ++ c).length = (j + 1) + c.length := by
      simp
    have hp1 : (∏ f in c.toFinset,
          (Nat.factorial ((List.replicate (j + 1) x ++ c).count f) : ℚ))
        = ∏ f in c.toFinset, (Nat.factorial (c.count f) : ℚ) :=
      Finset.prod_congr rfl (fun a ha => by rw [hca a ha])
    have hp2 : (∏ f in c.toFinset,
          (freqf f : ℚ) ^ ((List.replicate (j + 1) x ++ c).count f))
        = ∏ f in c.toFinset, (freqf f : ℚ) ^ (c.count f) :=
      Finset.prod_congr rfl (fun a ha => by rw [hca a ha])
    rw [amcW_eq_finset, amcW_eq_finset, htf, hlen,
      Finset.prod_insert hxf, Finset.prod_insert hxf, hcx, hp1, hp2]
    have hfact : (Nat.factorial ((j + 1) + c.length) : ℚ)
        = (Nat.choose ((j + 1) + c.length) (j + 1) : ℚ)
          * (Nat.factorial (j + 1) : ℚ) * (Nat.factorial c.length : ℚ) := by
      have h := Nat.choose_mul_factorial_mul_factorial
        (Nat.le_add_right (j + 1) c.length)
      have h2 : (j + 1) + c.length - (j + 1) = c.length := by omega
      rw [h2] at h
      exact_mod_cast h.symm
    rw [hfact]
    have h1 : (Nat.factorial (j + 1) : ℚ) ≠ 0 := by
      exact_mod_cast Nat.factorial_ne_zero (j + 1)
    have h2 : (∏ f in c.toFinset, (Nat.factorial (c.count f) : ℚ)) ≠ 0 :=
      prod_count_factorial_ne_zero c
    field_simp
    ring

/-- Decomposition of a sum over `cwrCons x tailCwr n` by the number of
leading copies of `x`. -/
theorem sum_cwrCons (x : Face) (tailCwr : ℕ → List (List Face))
    (h0 : tailCwr 0 = [[]]) :
    ∀ (n : ℕ) (g : List Face → ℚ),
      ((cwrCons x tailCwr n).map g).sum
        = ∑ k in Finset.range (n + 1),
            ((tailCwr (n - k)).map (fun c => g (List.replicate k x ++ c))).sum := by
  intro n
  induction n with
  | zero =>
    intro g
    simp [cwrCons, h0]
  | succ n ih =>
    intro g
    have hstep : ((cwrCons x tailCwr (n + 1)).map g).sum
        = ((cwrCons x tailCwr n).map (fun c => g (x :: c))).sum
          + ((tailCwr (n + 1)).map g).sum := by
      simp [cwrCons, List.map_append, List.map_map, Function.comp_def]
    rw [hstep, ih (fun c => g (x :: c))]
    rw [Finset.sum_range_succ' (fun k =>
      ((tailCwr (n + 1 - k)).map (fun c => g (List.replicate k x ++ c))).sum) (n + 1)]
    have hk : ∀ k, n + 1 - (k + 1) = n - k := fun k => by omega
    have hrepl : ∀ (k : ℕ) (c : List Face),
        g (List.replicate (k + 1) x ++ c) = g (x :: (List.replicate k x ++ c)) := by
      intro k c
      rw [List.replicate_succ, List.cons_append]
    have hsum : (∑ k in Finset.range (n + 1),
          ((tailCwr (n + 1 - (k + 1))).map
            (fun c => g (List.replicate (k + 1) x ++ c))).sum)
        = ∑ k in Finset.range (n + 1),
            ((tailCwr (n - k)).map (fun c => g (x :: (List.replicate k x ++ c)))).sum := by
      refine Finset.sum_congr rfl ?_
      intro k _
      rw [hk k]
      exact congrArg List.sum (List.map_congr_left (fun c _ => hrepl k c))
    rw [hsum]
    simp

/-- The per-pool multinomial identity: summing the adjusted multinomial
coefficient over all combinations-with-replacement of size `n` from a
duplicate-free pool gives the `n`-th power of the total frequency of
the pool. -/
theorem sum_cwr_amcW (freqf : Face → ℕ) :
    ∀ (L : List Face), L.Nodup → ∀ (n : ℕ),
      ((cwr L n).map (fun c => amcW freqf c)).sum
        = ((L.map (fun f => (freqf f : ℚ))).sum) ^ n := by
  intro L
  induction L with
  | nil =>
    intro _ n
    cases n with
    | zero => simp [cwr, amcW_nil]
    | succ n => simp [cwr, zero_pow (Nat.succ_ne_zero n)]
  | cons x xs ih =>
    intro hnd n
    have hx : x ∉ xs := (List.nodup_cons.mp hnd).1
    have hxs : xs.Nodup := (List.nodup_cons.mp hnd).2
    rw [cwr_cons, sum_cwrCons x (cwr xs) (cwr_zero xs) n (fun c => amcW freqf c)]
    have hterm : ∀ k ∈ Finset.range (n + 1),
        ((cwr xs (n - k)).map (fun c => amcW freqf (List.replicate k x ++ c))).sum
          = (Nat.choose n k : ℚ) * (freqf x : ℚ) ^ k
            * ((xs.map (fun f => (freqf f : ℚ))).sum) ^ (n - k) := by
      intro k hk
      have hkn : k ≤ n := Nat.lt_succ_iff.mp (Finset.mem_range.mp hk)
      have hmap : (cwr xs (n - k)).map (fun c => amcW freqf (List.replicate k x ++ c))
          = (cwr xs (n - k)).map
              (fun c => (Nat.choose n k : ℚ) * (freqf x : ℚ) ^ k * amcW freqf c) := by
        refine List.map_congr_left ?_
        intro c hc
        obtain ⟨hlen, hmem⟩ := cwr_length_mem xs (n - k) c hc
        have hxc : x ∉ c := fun hin => hx (hmem x hin)
        rw [amcW_replicate_append freqf x c hxc k, hlen, Nat.add_sub_cancel' hkn]
      rw [hmap, List.sum_map_mul_left, ih hxs (n - k)]
    rw [Finset.sum_congr rfl hterm]
    have hpow : ((((x :: xs).map (fun f => (freqf f : ℚ))).sum))
        = (freqf x : ℚ) + ((xs.map (fun f => (freqf f : ℚ))).sum) := by
      simp
    rw [hpow, add_pow]
    refine Finset.sum_congr rfl ?_
    intro k _
    ring

/-- Sum of skirmish face frequencies over the reduced skirmish list is 2. -/
theorem skirmish_freq_sum :
    (SKIRMISH_DICE.map (fun f => ((FACE_FREQUENCIES "skirmish" f : ℕ) : ℚ))).sum = 2 := by
  have h : (SKIRMISH_DICE.map (FACE_FREQUENCIES "skirmish")).sum = 2 := by decide
  have h2 : ((((SKIRMISH_DICE.map (FACE_FREQUENCIES "skirmish")).sum : ℕ)) : ℚ)
      = (SKIRMISH_DICE.map (fun f => ((FACE_FREQUENCIES "skirmish" f : ℕ) : ℚ))).sum := by
    rw [Nat.cast_list_sum, List.map_map]
    simp [Function.comp_def]
  rw [← h2, h]
  norm_num

/-- Sum of assault face frequencies over the reduced assault list is 6. -/
theorem assault_freq_sum :
    (UNIQUE_ASSAULT_DICE.map (fun f => ((FACE_FREQUENCIES "assault" f : ℕ) : ℚ))).sum = 6 := by
  have h : (UNIQUE_ASSAULT_DICE.map (FACE_FREQUENCIES "assault")).sum = 6 := by decide
  have h2 : ((((UNIQUE_ASSAULT_DICE.map (FACE_FREQUENCIES "assault")).sum : ℕ)) : ℚ)
      = (UNIQUE_ASSAULT_DICE.map (fun f => ((FACE_FREQUENCIES "assault" f : ℕ) : ℚ))).sum := by
    rw [Nat.cast_list_sum, List.map_map]
    simp [Function.comp_def]
  rw [← h2, h]
  norm_num

/-- Sum of raid face frequencies over the reduced raid list is 6. -/
theorem raid_freq_sum :
    (UNIQUE_RAID_DICE.map (fun f => ((FACE_FREQUENCIES "raid" f : ℕ) : ℚ))).sum = 6 := by
  have h : (UNIQUE_RAID_DICE.map (FACE_FREQUENCIES "raid")).sum = 6 := by decide
  have h2 : ((((UNIQUE_RAID_DICE.map (FACE_FREQUENCIES "raid")).sum : ℕ)) : ℚ)
      = (UNIQUE_RAID_DICE.map (fun f => ((FACE_FREQUENCIES "raid" f : ℕ) : ℚ))).sum := by
    rw [Nat.cast_list_sum, List.map_map]
    simp [Function.comp_def]
  rw [← h2, h]
  norm_num

theorem skirmish_nodup : SKIRMISH_DICE.Nodup := by decide

theorem unique_assault_nodup : UNIQUE_ASSAULT_DICE.Nodup := by decide

theorem unique_raid_nodup : UNIQUE_RAID_DICE.Nodup := by decide

theorem sum_cwr_skirmish (n : ℕ) :
    ((cwr SKIRMISH_DICE n).map
      (fun c => adjusted_multinomial_coefficient c "skirmish")).sum = 2 ^ n := by
  rw [show (fun c => adjusted_multinomial_coefficient c "skirmish")
      = (fun c => amcW (FACE_FREQUENCIES "skirmish") c) from rfl,
    sum_cwr_amcW (FACE_FREQUENCIES "skirmish") SKIRMISH_DICE skirmish_nodup n,
    skirmish_freq_sum]

theorem sum_cwr_assault (n : ℕ) :
    ((cwr UNIQUE_ASSAULT_DICE n).map
      (fun c => adjusted_multinomial_coefficient c "assault")).sum = 6 ^ n := by
  rw [show (fun c => adjusted_multinomial_coefficient c "assault")
      = (fun c => amcW (FACE_FREQUENCIES "assault") c) from rfl,
    sum_cwr_amcW (FACE_FREQUENCIES "assault") UNIQUE_ASSAULT_DICE unique_assault_nodup n,
    assault_freq_sum]

theorem sum_cwr_raid (n : ℕ) :
    ((cwr UNIQUE_RAID_DICE n).map
      (fun c => adjusted_multinomial_coefficient c "raid")).sum = 6 ^ n := by
  rw [show (fun c => adjusted_multinomial_coefficient c "raid")
      = (fun c => amcW (FACE_FREQUENCIES "raid") c) from rfl,
    sum_cwr_amcW (FACE_FREQUENCIES "raid") UNIQUE_RAID_DICE unique_raid_nodup n,
    raid_freq_sum]

/-- Grand-total identity (the assertion on line 380 of the source):
the accumulated microstate weight equals
`2 ^ num_skirmish * 6 ^ (num_assault + num_raid)` exactly. -/
theorem total_states_identity (ns na nr : ℕ) :
    total_states ns na nr = 2 ^ ns * 6 ^ (na + nr) := by
  rw [total_states, allTuples, sum_map_concatMap]
  have hinner : ∀ cs,
      ((concatMap
          (fun ca => (cwr UNIQUE_RAID_DICE nr).map (fun cr => (cs, ca, cr)))
          (cwr UNIQUE_ASSAULT_DICE na)).map tupleWeight).sum
        = adjusted_multinomial_coefficient cs "skirmish" * (6 ^ na * 6 ^ nr) := by
    intro cs
    rw [sum_map_concatMap]
    have hmid : ∀ ca,
        (((cwr UNIQUE_RAID_DICE nr).map (fun cr => (cs, ca, cr))).map tupleWeight).sum
          = (adjusted_multinomial_coefficient cs "skirmish"
              * adjusted_multinomial_coefficient ca "assault") * 6 ^ nr := by
      intro ca
      rw [List.map_map]
      have hcomp : (tupleWeight ∘ fun cr => (cs, ca, cr))
          = fun cr => (adjusted_multinomial_coefficient cs "skirmish"
              * adjusted_multinomial_coefficient ca "assault")
              * adjusted_multinomial_coefficient cr "raid" := rfl
      rw [hcomp, List.sum_map_mul_left, sum_cwr_raid nr]
    rw [List.map_congr_left (fun ca _ => hmid ca)]
    have hfac : (fun ca => (adjusted_multinomial_coefficient cs "skirmish"
          * adjusted_multinomial_coefficient ca "assault") * 6 ^ nr)
        = fun ca => (adjusted_multinomial_coefficient cs "skirmish" * 6 ^ nr)
            * adjusted_multinomial_coefficient ca "assault" := by
      funext ca; ring
    rw [hfac, List.sum_map_mul_left, sum_cwr_assault na]
    ring
  rw [List.map_congr_left (fun cs _ => hinner cs)]
  have hfac2 : (fun cs => adjusted_multinomial_coefficient cs "skirmish"
        * (6 ^ na * 6 ^ nr))
      = fun cs => (6 ^ na * 6 ^ nr) * adjusted_multinomial_coefficient cs "skirmish" := by
    funext cs; ring
  rw [hfac2, List.sum_map_mul_left, sum_cwr_skirmish ns]
  rw [pow_add]
  ring

set_option maxHeartbeats 2000000 in

theorem runSymbols_eq_runResult (ft : Option ℕ) (ci : Bool) :
    ∀ (syms : List Symbol) (a : RollAcc),
      runSymbols ft ci a syms = runResult ft ci a syms := by
  intro syms
  induction syms with
  | nil =>
    intro a
    cases a
    simp [runSymbols, runResult]
  | cons s rest ih =>
    intro a
    cases s with
    | hit =>
      simp only [runSymbols, parseSymbol, ih, runResult, List.count_cons, List.mem_cons]
      split_ifs <;> simp_all <;> omega
    | flame =>
      simp only [runSymbols, parseSymbol, ih, runResult, List.count_cons, List.mem_cons]
      split_ifs <;> simp_all <;> omega
    | blank =>
      simp only [runSymbols, parseSymbol, ih, runResult, List.count_cons, List.mem_cons]
      split_ifs <;> simp_all <;> omega
    | hitb =>
      simp only [runSymbols, parseSymbol, ih, runResult, List.count_cons, List.mem_cons]
      split_ifs <;> simp_all <;> omega
    | key =>
      simp only [runSymbols, parseSymbol, ih, runResult, List.count_cons, List.mem_cons]
      split_ifs <;> simp_all <;> omega
    | intercept =>
      by_cases hint : a.intercepts = true
      · simp only [runSymbols, parseSymbol, if_pos hint, ih, runResult,
          List.count_cons, List.mem_cons]
        split_ifs <;> simp_all <;> omega
      · by_cases hci : ci = true
        · cases ft with
          | none =>
            simp only [runSymbols, parseSymbol, if_neg hint, if_pos hci, ih, runResult,
              List.count_cons, List.mem_cons]
            split_ifs <;> simp_all
          | some n =>
            simp only [runSymbols, parseSymbol, if_neg hint, if_pos hci, ih, runResult,
              List.count_cons, List.mem_cons]
            split_ifs <;> simp_all <;> omega
        · simp only [runSymbols, parseSymbol, if_neg hint, if_neg hci, ih, runResult,
            List.count_cons, List.mem_cons]
          split_ifs <;> simp_all <;> omega

/-- The emission branch taken is always the uniform one covering all
four fields, because `roll_dict` always carries all three die-type
keys. -/
theorem parse_dice_uniform (sc ac rc : List Face) (ft : Option ℕ) (ci : Bool) :
    parse_dice sc ac rc ft ci =
      match runSymbols ft ci RollAcc.init (symbolsOf sc ac rc) with
      | Except.error e => Except.error e
      | Except.ok a => Except.ok (outcome_key_format a ci) := by
  have hsym : concatMap (fun kv : String × List Face => concatMap (fun face => face) kv.2)
      [("skirmish", sc), ("assault", ac), ("raid", rc)] = symbolsOf sc ac rc := by
    simp [concatMap, symbolsOf, concatMap_append, List.append_assoc]
  have h1 : ((([("skirmish", sc), ("assault", ac), ("raid", rc)]
        : List (String × List Face)).map Prod.fst).toFinset : Finset String)
      = {"skirmish", "assault", "raid"} := rfl
  have h2 : ¬(({"skirmish", "assault", "raid"} : Finset String) = {"skirmish"}) := by decide
  have h3 : ¬(({"skirmish", "assault", "raid"} : Finset String) = {"raid"}) := by decide
  have h4 : "raid" ∈ ({"skirmish", "assault", "raid"} : Finset String) := by decide
  cases hrun : runSymbols ft ci RollAcc.init (symbolsOf sc ac rc) with
  | error e =>
    simp only [parse_dice, hsym, hrun]
  | ok a =>
    simp only [parse_dice, hsym, hrun, h1, if_neg h2, if_neg h3, if_pos h4,
      outcome_key_format]

/-- Full closed form of `parse_dice`: either the configuration error
(convert on, fresh targets unset, an intercept drawn) or the canonical
key of the count-determined accumulator. -/
theorem parse_dice_closed (sc ac rc : List Face) (ft : Option ℕ) (ci : Bool) :
    parse_dice sc ac rc ft ci =
      if ci = true ∧ ft = none ∧ Symbol.intercept ∈ symbolsOf sc ac rc then
        Except.error "Cannot convert intercepts if fresh targets not set"
      else Except.ok (outcome_key_format (accOf ft ci (symbolsOf sc ac rc)) ci) := by
  rw [parse_dice_uniform, runSymbols_eq_runResult]
  rw [runResult]
  by_cases h : ci = true ∧ ft = none ∧ Symbol.intercept ∈ symbolsOf sc ac rc
  · rw [if_pos (by simp [RollAcc.init, h.1, h.2.1, h.2.2]), if_pos h]
  · rw [if_neg (by simp only [RollAcc.init]; tauto), if_neg h]
    simp [accOf, RollAcc.init]

theorem parseTuples_ok (ft : Option ℕ) (ci : Bool) :
    ∀ ts : List RollTuple, (∀ t ∈ ts, ¬pdErr ft ci t) →
      parseTuples ft ci ts
        = Except.ok (ts.map (fun t => (pdKey ft ci t, tupleWeight t))) := by
  intro ts
  induction ts with
  | nil => intro _; rfl
  | cons t ts ih =>
    intro h
    have ht : ¬(ci = true ∧ ft = none ∧ Symbol.intercept ∈ symbolsOf t.1 t.2.1 t.2.2) :=
      h t (List.mem_cons_self t ts)
    have hpd : parse_dice t.1 t.2.1 t.2.2 ft ci = Except.ok (pdKey ft ci t) := by
      rw [parse_dice_closed, if_neg ht]
      rfl
    simp only [parseTuples, hpd, ih (fun u hu => h u (List.mem_cons_of_mem t hu)), List.map]

theorem parseTuples_error_iff (ft : Option ℕ) (ci : Bool) :
    ∀ ts : List RollTuple,
      (∃ e, parseTuples ft ci ts = Except.error e) ↔ ∃ t ∈ ts, pdErr ft ci t := by
  intro ts
  induction ts with
  | nil =>
    constructor
    · rintro ⟨e, he⟩; cases he
    · rintro ⟨t, ht, _⟩; cases ht
  | cons t ts ih =>
    by_cases ht : pdErr ft ci t
    · have ht2 : ci = true ∧ ft = none ∧ Symbol.intercept ∈ symbolsOf t.1 t.2.1 t.2.2 := ht
      have hpd : parse_dice t.1 t.2.1 t.2.2 ft ci
          = Except.error "Cannot convert intercepts if fresh targets not set" := by
        rw [parse_dice_closed, if_pos ht2]
      constructor
      · intro _; exact ⟨t, List.mem_cons_self t ts, ht⟩
      · intro _
        refine ⟨"Cannot convert intercepts if fresh targets not set", ?_⟩
        simp only [parseTuples, hpd]
    · have ht2 : ¬(ci = true ∧ ft = none ∧ Symbol.intercept ∈ symbolsOf t.1 t.2.1 t.2.2) := ht
      have hpd : parse_dice t.1 t.2.1 t.2.2 ft ci = Except.ok (pdKey ft ci t) := by
        rw [parse_dice_closed, if_neg ht2]
        rfl
      constructor
      · rintro ⟨e, he⟩
        simp only [parseTuples, hpd] at he
        cases hrest : parseTuples ft ci ts with
        | error e2 =>
          obtain ⟨u, hu, hup⟩ := ih.mp ⟨e2, hrest⟩
          exact ⟨u, List.mem_cons_of_mem t hu, hup⟩
        | ok rest => rw [hrest] at he; cases he
      · rintro ⟨u, hu, hup⟩
        rcases List.mem_cons.mp hu with rfl | hu
        · exact absurd hup ht
        · obtain ⟨e, he⟩ := ih.mpr ⟨u, hu, hup⟩
          refine ⟨e, ?_⟩
          simp only [parseTuples, hpd, he]

theorem lookupD_dictAdd_same (d : List (String × ℚ)) (k : String) (w : ℚ) :
    lookupD (dictAdd d k w) k = lookupD d k + w := by
  induction d with
  | nil => simp [dictAdd, lookupD]
  | cons kv rest ih =>
    obtain ⟨k2, w2⟩ := kv
    by_cases h : k2 = k
    · simp [dictAdd, lookupD, h]
    · simp [dictAdd, lookupD, h, ih]

theorem lookupD_dictAdd_other (d : List (String × ℚ)) (k k3 : String) (w : ℚ)
    (h : k3 ≠ k) : lookupD (dictAdd d k w) k3 = lookupD d k3 := by
  have hkk3 : ¬(k = k3) := fun hh => h hh.symm
  induction d with
  | nil => simp only [dictAdd, lookupD, if_neg hkk3]
  | cons kv rest ih =>
    obtain ⟨k2, w2⟩ := kv
    by_cases h2 : k2 = k
    · subst h2
      simp only [dictAdd, if_pos rfl, lookupD, if_neg hkk3]
    · simp only [dictAdd, if_neg h2, lookupD]
      by_cases h3 : k2 = k3
      · simp only [if_pos h3]
      · simp only [if_neg h3, ih]

theorem dictAdd_keys (d : List (String × ℚ)) (k : String) (w : ℚ) :
    (dictAdd d k w).map Prod.fst
      = if k ∈ d.map Prod.fst then d.map Prod.fst else d.map Prod.fst ++ [k] := by
  induction d with
  | nil => simp [dictAdd]
  | cons kv rest ih =>
    obtain ⟨k2, w2⟩ := kv
    by_cases h : k2 = k
    · subst h
      simp [dictAdd]
    · have hk2 : ¬(k = k2) := fun hh => h hh.symm
      simp only [dictAdd, if_neg h, List.map_cons, ih, List.mem_cons]
      by_cases hm : k ∈ rest.map Prod.fst
      · simp [hm, hk2]
      · simp [hm, hk2]

theorem dictAdd_snd_sum (d : List (String × ℚ)) (k : String) (w : ℚ) :
    ((dictAdd d k w).map Prod.snd).sum = (d.map Prod.snd).sum + w := by
  induction d with
  | nil => simp [dictAdd]
  | cons kv rest ih =>
    obtain ⟨k2, w2⟩ := kv
    by_cases h : k2 = k
    · simp [dictAdd, h]
      ring
    · simp [dictAdd, h, ih]
      ring

theorem aggOf_nil (k : String) : aggOf [] k = 0 := rfl

theorem aggOf_cons (kw : String × ℚ) (kws : List (String × ℚ)) (k : String) :
    aggOf (kw :: kws) k = (if kw.1 = k then kw.2 else 0) + aggOf kws k := by
  by_cases h : kw.1 = k
  · simp [aggOf, List.filter, h]
  · simp [aggOf, List.filter, h]

theorem foldl_dictAdd_lookup (kws : List (String × ℚ)) :
    ∀ (d : List (String × ℚ)) (k : String),
      lookupD (kws.foldl (fun d kw => dictAdd d kw.1 kw.2) d) k
        = lookupD d k + aggOf kws k := by
  induction kws with
  | nil => intro d k; simp [aggOf_nil]
  | cons kw kws ih =>
    intro d k
    rw [List.foldl_cons, ih, aggOf_cons]
    by_cases h : kw.1 = k
    · rw [if_pos h, h, lookupD_dictAdd_same]
      ring
    · rw [if_neg h, lookupD_dictAdd_other d kw.1 k kw.2 (fun hh => h hh.symm)]
      ring

theorem foldl_dictAdd_keys_nodup (kws : List (String × ℚ)) :
    ∀ d : List (String × ℚ), (d.map Prod.fst).Nodup →
      ((kws.foldl (fun d kw => dictAdd d kw.1 kw.2) d).map Prod.fst).Nodup := by
  induction kws with
  | nil => intro d hd; exact hd
  | cons kw kws ih =>
    intro d hd
    rw [List.foldl_cons]
    refine ih (dictAdd d kw.1 kw.2) ?_
    rw [dictAdd_keys]
    by_cases hm : kw.1 ∈ d.map Prod.fst
    · rw [if_pos hm]; exact hd
    · rw [if_neg hm]
      simp [List.nodup_append, hd, hm]

theorem foldl_dictAdd_snd_sum (kws : List (String × ℚ)) :
    ∀ d : List (String × ℚ),
      (((kws.foldl (fun d kw => dictAdd d kw.1 kw.2) d).map Prod.snd).sum)
        = (d.map Prod.snd).sum + (kws.map Prod.snd).sum := by
  induction kws with
  | nil => intro d; simp
  | cons kw kws ih =>
    intro d
    rw [List.foldl_cons, ih, dictAdd_snd_sum]
    simp
    ring

theorem map_snd_eq_map_lookupD (d : List (String × ℚ)) (hnd : (d.map Prod.fst).Nodup) :
    d.map Prod.snd = (d.map Prod.fst).map (lookupD d) := by
  induction d with
  | nil => rfl
  | cons kv rest ih =>
    obtain ⟨k, w⟩ := kv
    simp only [List.map_cons] at hnd ⊢
    obtain ⟨hk, hrest⟩ := List.nodup_cons.mp hnd
    congr 1
    · simp [lookupD]
    · rw [ih hrest]
      refine List.map_congr_left ?_
      intro k2 hk2
      have hne : ¬(k = k2) := fun hh => hk (hh ▸ hk2)
      simp [lookupD, hne]

theorem insertSorted_perm {α : Type} (le : α → α → Bool) (x : α) :
    ∀ l : List α, (insertSorted le x l).Perm (x :: l) := by
  intro l
  induction l with
  | nil => exact List.Perm.refl [x]
  | cons y ys ih =>
    by_cases h : le y x = true
    · simp only [insertSorted, if_pos h]
      exact (ih.cons y).trans (List.Perm.swap x y ys)
    · simp only [insertSorted, if_neg h]
      exact List.Perm.refl _

theorem foldl_insertSorted_perm {α : Type} (le : α → α → Bool) :
    ∀ (l acc : List α),
      (l.foldl (fun acc x => insertSorted le x acc) acc).Perm (acc ++ l) := by
  intro l
  induction l with
  | nil => intro acc; simp
  | cons x xs ih =>
    intro acc
    rw [List.foldl_cons]
    refine (ih (insertSorted le x acc)).trans ?_
    refine (((insertSorted_perm le x acc).append_right xs)).trans ?_
    exact List.perm_middle.symm

theorem pySorted_perm {α : Type} (le : α → α → Bool) (l : List α) :
    (pySorted le l).Perm l := by
  have h := foldl_insertSorted_perm le l []
  simpa [pySorted] using h

theorem insertSorted_pairwise {α : Type} (le : α → α → Bool)
    (htrans : ∀ a b c, le a b = true → le b c = true → le a c = true)
    (htot : ∀ a b, le a b = false → le b a = true) (x : α) :
    ∀ l : List α, l.Pairwise (fun a b => le a b = true) →
      (insertSorted le x l).Pairwise (fun a b => le a b = true) := by
  intro l
  induction l with
  | nil => intro _; simp [insertSorted]
  | cons y ys ih =>
    intro h
    obtain ⟨hy, hys⟩ := List.pairwise_cons.mp h
    by_cases hle : le y x = true
    · simp only [insertSorted, if_pos hle]
      refine List.pairwise_cons.mpr ⟨?_, ih hys⟩
      intro b hb
      rcases List.mem_cons.mp ((insertSorted_perm le x ys).mem_iff.mp hb) with rfl | h1
      · exact hle
      · exact hy b h1
    · have hxy : le x y = true := htot y x (by simpa using hle)
      simp only [insertSorted, if_neg hle]
      refine List.pairwise_cons.mpr ⟨?_, h⟩
      intro b hb
      rcases List.mem_cons.mp hb with rfl | h1
      · exact hxy
      · exact htrans x y b hxy (hy b h1)

theorem pySorted_pairwise {α : Type} (le : α → α → Bool)
    (htrans : ∀ a b c, le a b = true → le b c = true → le a c = true)
    (htot : ∀ a b, le a b = false → le b a = true) (l : List α) :
    (pySorted le l).Pairwise (fun a b => le a b = true) := by
  rw [pySorted]
  have h : ∀ acc : List α, acc.Pairwise (fun a b => le a b = true) →
      (l.foldl (fun acc x => insertSorted le x acc) acc).Pairwise
        (fun a b => le a b = true) := by
    induction l with
    | nil => intro acc hacc; exact hacc
    | cons x xs ih =>
      intro acc hacc
      rw [List.foldl_cons]
      exact ih (insertSorted le x acc) (insertSorted_pairwise le htrans htot x acc hacc)
  exact h [] List.Pairwise.nil

theorem kwsOf_snd_sum (ns na nr : ℕ) (ft : Option ℕ) (ci : Bool) :
    ((kwsOf ns na nr ft ci).map Prod.snd).sum = 2 ^ ns * 6 ^ (na + nr) := by
  rw [kwsOf, List.map_map]
  have hc : (Prod.snd ∘ fun t : RollTuple => (pdKey ft ci t, tupleWeight t)) = tupleWeight := rfl
  rw [hc]
  exact total_states_identity ns na nr

theorem buildDict_lookup (kws : List (String × ℚ)) (k : String) :
    lookupD (buildDict kws) k = aggOf kws k := by
  have h := foldl_dictAdd_lookup kws [] k
  simpa [buildDict, lookupD] using h

theorem buildDict_keys_nodup (kws : List (String × ℚ)) :
    ((buildDict kws).map Prod.fst).Nodup :=
  foldl_dictAdd_keys_nodup kws [] (by simp)

theorem buildDict_snd_sum (kws : List (String × ℚ)) :
    ((buildDict kws).map Prod.snd).sum = (kws.map Prod.snd).sum := by
  have h := foldl_dictAdd_snd_sum kws []
  simpa [buildDict] using h

theorem list_sum_map_div (l : List ℚ) (q : ℚ) :
    (l.map (fun w => w / q)).sum = l.sum / q := by
  induction l with
  | nil => simp
  | cons x xs ih => simp [ih, add_div]

/-- Shape of a successful run: when no tuple raises, the enumerator
returns the dictionary keys sorted by weight and the normalized
probabilities sorted ascending. -/
theorem compute_probabilities_ok (ns na nr : ℕ) (ft : Option ℕ) (ci : Bool)
    (h : ∀ t ∈ allTuples ns na nr, ¬pdErr ft ci t) :
    compute_probabilities ns na nr ft ci = Except.ok
      (pySorted
        (fun k1 k2 => decide (lookupD (buildDict (kwsOf ns na nr ft ci)) k1
            ≤ lookupD (buildDict (kwsOf ns na nr ft ci)) k2))
        ((buildDict (kwsOf ns na nr ft ci)).map Prod.fst),
       pySorted (fun p q => decide (p ≤ q))
        ((buildDict (kwsOf ns na nr ft ci)).map
          (fun kv => kv.2 / ((2 : ℚ) ^ ns * 6 ^ (na + nr))))) := by
  have hok := parseTuples_ok ft ci (allTuples ns na nr) h
  have hkws : (allTuples ns na nr).map (fun t => (pdKey ft ci t, tupleWeight t))
      = kwsOf ns na nr ft ci := rfl
  rw [hkws] at hok
  rw [compute_probabilities, hok]
  simp only []
  rw [kwsOf_snd_sum, if_pos rfl]

/-- When some tuple raises, the enumerator propagates the error. -/
theorem compute_probabilities_error (ns na nr : ℕ) (ft : Option ℕ) (ci : Bool)
    (h : ∃ t ∈ allTuples ns na nr, pdErr ft ci t) :
    ∃ e, compute_probabilities ns na nr ft ci = Except.error e := by
  obtain ⟨e, he⟩ := (parseTuples_error_iff ft ci (allTuples ns na nr)).mpr h
  exact ⟨e, by rw [compute_probabilities, he]⟩

theorem decide_qle_trans (a b c : ℚ) (h1 : decide (a ≤ b) = true)
    (h2 : decide (b ≤ c) = true) : decide (a ≤ c) = true :=
  decide_eq_true (le_trans (of_decide_eq_true h1) (of_decide_eq_true h2))

theorem decide_qle_tot (a b : ℚ) (h : decide (a ≤ b) = false) : decide (b ≤ a) = true :=
  decide_eq_true (le_of_not_le (of_decide_eq_false h))

theorem decide_key_trans (f : String → ℚ) (a b c : String)
    (h1 : decide (f a ≤ f b) = true) (h2 : decide (f b ≤ f c) = true) :
    decide (f a ≤ f c) = true :=
  decide_qle_trans (f a) (f b) (f c) h1 h2

theorem decide_key_tot (f : String → ℚ) (a b : String)
    (h : decide (f a ≤ f b) = false) : decide (f b ≤ f a) = true :=
  decide_qle_tot (f a) (f b) h

/-- Probability/key pairing of a successful run: the returned
probability list is sorted ascending, and it equals the returned key
list mapped through normalized aggregated weight, even though the two
lists are sorted separately. -/
theorem compute_probabilities_pairing (ns na nr : ℕ) (ft : Option ℕ) (ci : Bool)
    (ms : List String) (ps : List ℚ)
    (h : compute_probabilities ns na nr ft ci = Except.ok (ms, ps)) :
    List.Sorted (· ≤ ·) ps ∧
      ps = ms.map (fun k =>
        aggWeight ns na nr ft ci k / ((2 : ℚ) ^ ns * 6 ^ (na + nr))) := by
  by_cases herr : ∃ t ∈ allTuples ns na nr, pdErr ft ci t
  · obtain ⟨e, he⟩ := compute_probabilities_error ns na nr ft ci herr
    rw [h] at he
    exact Except.noConfusion he
  · push_neg at herr
    rw [compute_probabilities_ok ns na nr ft ci herr] at h
    have hp := Except.ok.inj h
    have hms : pySorted
        (fun k1 k2 => decide (lookupD (buildDict (kwsOf ns na nr ft ci)) k1
            ≤ lookupD (buildDict (kwsOf ns na nr ft ci)) k2))
        ((buildDict (kwsOf ns na nr ft ci)).map Prod.fst) = ms := congrArg Prod.fst hp
    have hps : pySorted (fun p q => decide (p ≤ q))
        ((buildDict (kwsOf ns na nr ft ci)).map
          (fun kv => kv.2 / ((2 : ℚ) ^ ns * 6 ^ (na + nr)))) = ps := congrArg Prod.snd hp
    have hT : (0 : ℚ) < 2 ^ ns * 6 ^ (na + nr) := by positivity
    have hnodup := buildDict_keys_nodup (kwsOf ns na nr ft ci)
    have hsortedPS : List.Sorted (· ≤ ·) ps := by
      rw [← hps]
      refine List.Pairwise.imp ?_
        (pySorted_pairwise (fun p q => decide (p ≤ q)) decide_qle_trans decide_qle_tot _)
      intro a b hab
      exact of_decide_eq_true hab
    refine ⟨hsortedPS, ?_⟩
    have hstep1 : (buildDict (kwsOf ns na nr ft ci)).map
        (fun kv => kv.2 / ((2 : ℚ) ^ ns * 6 ^ (na + nr)))
        = ((buildDict (kwsOf ns na nr ft ci)).map Prod.fst).map
            (fun k => lookupD (buildDict (kwsOf ns na nr ft ci)) k
              / ((2 : ℚ) ^ ns * 6 ^ (na + nr))) := by
      have h1 : (buildDict (kwsOf ns na nr ft ci)).map
          (fun kv => kv.2 / ((2 : ℚ) ^ ns * 6 ^ (na + nr)))
          = ((buildDict (kwsOf ns na nr ft ci)).map Prod.snd).map
              (fun w => w / ((2 : ℚ) ^ ns * 6 ^ (na + nr))) := by
        rw [List.map_map]
        rfl
      rw [h1, map_snd_eq_map_lookupD _ hnodup, List.map_map]
      rfl
    have hmsperm : ms.Perm ((buildDict (kwsOf ns na nr ft ci)).map Prod.fst) := by
      rw [← hms]
      exact pySorted_perm _ _
    have hmapperm : (ms.map (fun k => lookupD (buildDict (kwsOf ns na nr ft ci)) k
        / ((2 : ℚ) ^ ns * 6 ^ (na + nr)))).Perm
        (((buildDict (kwsOf ns na nr ft ci)).map Prod.fst).map
          (fun k => lookupD (buildDict (kwsOf ns na nr ft ci)) k
            / ((2 : ℚ) ^ ns * 6 ^ (na + nr)))) :=
      hmsperm.map _
    have hpsperm : ps.Perm (ms.map (fun k => lookupD (buildDict (kwsOf ns na nr ft ci)) k
        / ((2 : ℚ) ^ ns * 6 ^ (na + nr)))) := by
      refine List.Perm.trans ?_ hmapperm.symm
      rw [← hps]
      refine (pySorted_perm _ _).trans ?_
      rw [hstep1]
    have hsortedmap : List.Sorted (· ≤ ·)
        (ms.map (fun k => lookupD (buildDict (kwsOf ns na nr ft ci)) k
          / ((2 : ℚ) ^ ns * 6 ^ (na + nr)))) := by
      refine List.pairwise_map.mpr ?_
      have hmp : ms.Pairwise (fun k1 k2 =>
          decide (lookupD (buildDict (kwsOf ns na nr ft ci)) k1
            ≤ lookupD (buildDict (kwsOf ns na nr ft ci)) k2) = true) := by
        rw [← hms]
        exact pySorted_pairwise _
          (decide_key_trans (fun k => lookupD (buildDict (kwsOf ns na nr ft ci)) k))
          (decide_key_tot (fun k => lookupD (buildDict (kwsOf ns na nr ft ci)) k)) _
      refine hmp.imp ?_
      intro a b hab
      exact (div_le_div_iff_of_pos_right hT).mpr (of_decide_eq_true hab)
    have hfinal : ps = ms.map (fun k => lookupD (buildDict (kwsOf ns na nr ft ci)) k
        / ((2 : ℚ) ^ ns * 6 ^ (na + nr))) :=
      List.eq_of_perm_of_sorted hpsperm hsortedPS hsortedmap
    have hG : (fun k => lookupD (buildDict (kwsOf ns na nr ft ci)) k
          / ((2 : ℚ) ^ ns * 6 ^ (na + nr)))
        = (fun k => aggWeight ns na nr ft ci k / ((2 : ℚ) ^ ns * 6 ^ (na + nr))) := by
      funext k
      rw [buildDict_lookup]
      rfl
    rw [hfinal, hG]

/-- Probabilities of a successful run sum to exactly 1. -/
theorem compute_probabilities_sum_one (ns na nr : ℕ) (ft : Option ℕ) (ci : Bool)
    (hvalid : ci = true → ft ≠ none) :
    ∃ ms ps, compute_probabilities ns na nr ft ci = Except.ok (ms, ps) ∧ ps.sum = 1 := by
  have hnoerr : ∀ t ∈ allTuples ns na nr, ¬pdErr ft ci t := by
    intro t _ hmem
    exact hvalid hmem.1 hmem.2.1
  refine ⟨_, _, compute_probabilities_ok ns na nr ft ci hnoerr, ?_⟩
  have hT : ((2 : ℚ) ^ ns * 6 ^ (na + nr)) ≠ 0 := by positivity
  have hperm := pySorted_perm (fun p q : ℚ => decide (p ≤ q))
    ((buildDict (kwsOf ns na nr ft ci)).map
      (fun kv => kv.2 / ((2 : ℚ) ^ ns * 6 ^ (na + nr))))
  rw [hperm.sum_eq]
  have h1 : (buildDict (kwsOf ns na nr ft ci)).map
      (fun kv => kv.2 / ((2 : ℚ) ^ ns * 6 ^ (na + nr)))
      = ((buildDict (kwsOf ns na nr ft ci)).map Prod.snd).map
          (fun w => w / ((2 : ℚ) ^ ns * 6 ^ (na + nr))) := by
    rw [List.map_map]
    rfl
  rw [h1, list_sum_map_div, buildDict_snd_sum, kwsOf_snd_sum]
  exact div_self hT

theorem mem_allTuples (ns na nr : ℕ) (t : RollTuple) :
    t ∈ allTuples ns na nr ↔
      t.1 ∈ cwr SKIRMISH_DICE ns ∧ t.2.1 ∈ cwr UNIQUE_ASSAULT_DICE na
        ∧ t.2.2 ∈ cwr UNIQUE_RAID_DICE nr := by
  obtain ⟨cs, ca, cr⟩ := t
  constructor
  · intro h
    rw [allTuples, mem_concatMap] at h
    obtain ⟨cs2, hcs2, h⟩ := h
    rw [mem_concatMap] at h
    obtain ⟨ca2, hca2, h⟩ := h
    rw [List.mem_map] at h
    obtain ⟨cr2, hcr2, heq⟩ := h
    obtain ⟨h1, h2, h3⟩ := Prod.mk.injEq .. ▸ heq
    exact ⟨h1 ▸ hcs2, by cases heq; exact ⟨hca2, hcr2⟩⟩
  · rintro ⟨h1, h2, h3⟩
    rw [allTuples, mem_concatMap]
    refine ⟨cs, h1, ?_⟩
    rw [mem_concatMap]
    refine ⟨ca, h2, ?_⟩
    rw [List.mem_map]
    exact ⟨cr, h3, rfl⟩

theorem skirmish_no_intercept : ∀ f ∈ SKIRMISH_DICE, Symbol.intercept ∉ f := by decide

/-- With `convert_intercepts` on and `fresh_targets` unset, the
enumerator raises the configuration `ValueError` exactly when some
assault or raid die is rolled: the error comes from `parse_dice` inside
the enumeration loop, and skirmish-only configurations (whose faces
carry no intercept symbol) are silently accepted. -/
theorem compute_probabilities_unset_error_iff (ns na nr : ℕ) :
    (∃ e, compute_probabilities ns na nr none true = Except.error e)
      ↔ (0 < na ∨ 0 < nr) := by
  constructor
  · intro hE
    by_cases herr : ∃ t ∈ allTuples ns na nr, pdErr none true t
    · obtain ⟨t, ht, hpd⟩ := herr
      by_contra hcon
      push_neg at hcon
      have hna : na = 0 := by omega
      have hnr : nr = 0 := by omega
      obtain ⟨h1, h2, h3⟩ := (mem_allTuples ns na nr t).mp ht
      rw [hna, cwr_zero] at h2
      rw [hnr, cwr_zero] at h3
      have h2e : t.2.1 = [] := by simpa using h2
      have h3e : t.2.2 = [] := by simpa using h3
      have hint := hpd.2.2
      rw [h2e, h3e] at hint
      rw [symbolsOf, mem_concatMap] at hint
      obtain ⟨face, hface, hin⟩ := hint
      simp only [List.append_nil] at hface
      obtain ⟨hlen, hmemL⟩ := cwr_length_mem SKIRMISH_DICE ns t.1 h1
      exact skirmish_no_intercept face (hmemL face hface) hin
    · push_neg at herr
      obtain ⟨e, he⟩ := hE
      rw [compute_probabilities_ok ns na nr none true herr] at he
      exact Except.noConfusion he
  · intro hpos
    have hwitness : ∃ t ∈ allTuples ns na nr, pdErr none true t := by
      rcases hpos with hna | hnr
      · refine ⟨(List.replicate ns [Symbol.blank],
          List.replicate na [Symbol.hit, Symbol.intercept],
          List.replicate nr [Symbol.hitb, Symbol.flame]), ?_, ?_⟩
        · rw [mem_allTuples]
          refine ⟨replicate_mem_cwr _ _ (by decide) ns,
            replicate_mem_cwr _ _ (by decide) na,
            replicate_mem_cwr _ _ (by decide) nr⟩
        · refine ⟨rfl, rfl, ?_⟩
          rw [symbolsOf, mem_concatMap]
          refine ⟨[Symbol.hit, Symbol.intercept], ?_, by decide⟩
          refine List.mem_append_left _ (List.mem_append_right _ ?_)
          rw [List.mem_replicate]
          exact ⟨by omega, rfl⟩
      · refine ⟨(List.replicate ns [Symbol.blank],
          List.replicate na [Symbol.hit, Symbol.flame],
          List.replicate nr [Symbol.intercept]), ?_, ?_⟩
        · rw [mem_allTuples]
          refine ⟨replicate_mem_cwr _ _ (by decide) ns,
            replicate_mem_cwr _ _ (by decide) na,
            replicate_mem_cwr _ _ (by decide) nr⟩
        · refine ⟨rfl, rfl, ?_⟩
          rw [symbolsOf, mem_concatMap]
          refine ⟨[Symbol.intercept], ?_, by decide⟩
          refine List.mem_append_right _ ?_
          rw [List.mem_replicate]
          exact ⟨by omega, rfl⟩
    exact compute_probabilities_error ns na nr none true hwitness

/-- The resolved key depends only on the counts of the non-intercept
symbols and on whether at least one intercept is present. -/
theorem parse_dice_count_invariant (sc ac rc sc2 ac2 rc2 : List Face)
    (ft : Option ℕ) (ci : Bool)
    (hcount : ∀ s : Symbol, s ≠ Symbol.intercept →
      (symbolsOf sc ac rc).count s = (symbolsOf sc2 ac2 rc2).count s)
    (hmem : Symbol.intercept ∈ symbolsOf sc ac rc
      ↔ Symbol.intercept ∈ symbolsOf sc2 ac2 rc2) :
    parse_dice sc ac rc ft ci = parse_dice sc2 ac2 rc2 ft ci := by
  have hacc : accOf ft ci (symbolsOf sc ac rc) = accOf ft ci (symbolsOf sc2 ac2 rc2) := by
    unfold accOf
    rw [hcount Symbol.hit (by decide), hcount Symbol.hitb (by decide),
      hcount Symbol.flame (by decide), hcount Symbol.key (by decide),
      hcount Symbol.blank (by decide),
      if_congr (and_congr hmem Iff.rfl) rfl rfl, decide_eq_decide.mpr hmem]
  rw [parse_dice_closed, parse_dice_closed]
  exact if_congr (and_congr Iff.rfl (and_congr Iff.rfl hmem)) rfl (by rw [hacc])

theorem join_or_zero_ne_empty (parts : List String)
    (hp : ∀ p ∈ parts, p.data ≠ []) :
    (if parts.isEmpty then "0" else String.join parts) ≠ "" := by
  cases parts with
  | nil => decide
  | cons p rest =>
    simp only [List.isEmpty_cons, if_neg Bool.false_ne_true]
    intro h
    have hd := congrArg String.data h
    rw [String.join_eq] at hd
    simp only [List.map_cons, List.flatten_cons] at hd
    exact hp p (List.mem_cons_self p rest) (List.append_eq_nil.mp hd).1

theorem outcome_key_format_ne_empty (a : RollAcc) (ci : Bool) :
    outcome_key_format a ci ≠ "" := by
  rw [outcome_key_format]
  refine join_or_zero_ne_empty _ ?_
  intro p hp
  simp only [List.append_assoc, List.mem_append] at hp
  have hseg : ∀ (n : ℕ) (letter : String), letter.data ≠ [] →
      p ∈ (if 0 < n then [toString n ++ letter] else []) → p.data ≠ [] := by
    intro n letter hl hmem
    rcases Nat.eq_zero_or_pos n with hn | hn
    · rw [hn] at hmem
      simp at hmem
    · rw [if_pos hn] at hmem
      rcases List.mem_singleton.mp hmem with rfl
      rw [String.data_append]
      intro hnil
      exact hl (List.append_eq_nil.mp hnil).2
  rcases hp with h1 | h2 | h3 | h4 | h5
  · exact hseg a.hits "H" (by decide) h1
  · exact hseg a.hitbs "B" (by decide) h2
  · exact hseg a.damage "D" (by decide) h3
  · exact hseg a.keys "K" (by decide) h4
  · revert h5
    split
    · intro h5
      rcases List.mem_singleton.mp h5 with rfl
      decide
    · intro h5
      cases h5

/-- Claim C1: for every roll configuration (any die counts, with a
valid `fresh_targets`/`convert_intercepts` combination), the
probabilities returned by `compute_probabilities` sum to exactly 1. -/
theorem compute_probabilities_normalized (ns na nr : ℕ) (ft : Option ℕ) (ci : Bool)
    (hvalid : ci = true → ft ≠ none) :
    ∃ ms ps, compute_probabilities ns na nr ft ci = Except.ok (ms, ps) ∧ ps.sum = 1 :=
  compute_probabilities_sum_one ns na nr ft ci hvalid

/-- Witness for C1 at the configuration of one skirmish die. -/
theorem compute_probabilities_normalized_witness :
    ∃ ms ps, compute_probabilities 1 0 0 none false = Except.ok (ms, ps) ∧ ps.sum = 1 :=
  compute_probabilities_normalized 1 0 0 none false (fun h => absurd h (by decide))

/-- Claim C2: the grand total of microstate weights accumulated by
`compute_probabilities` (the sum of the products of the three adjusted
multinomial coefficients over all cross-product tuples) equals
`2 ^ num_skirmish * 6 ^ (num_assault + num_raid)` exactly, as an
integer identity. -/
theorem grand_total_identity_exact (ns na nr : ℕ) :
    total_states ns na nr = ((2 ^ ns * 6 ^ (na + nr) : ℕ) : ℚ) := by
  rw [total_states_identity]
  push_cast
  ring

/-- Claim C3: a combination carrying two or more intercept symbols
resolves to exactly the same OutcomeKey as one carrying a single
intercept with all other symbols equal. -/
theorem single_intercept_rule (sc ac rc sc2 ac2 rc2 : List Face) (ft : Option ℕ) (ci : Bool)
    (h2plus : 2 ≤ (symbolsOf sc ac rc).count Symbol.intercept)
    (hone : (symbolsOf sc2 ac2 rc2).count Symbol.intercept = 1)
    (hothers : ∀ s : Symbol, s ≠ Symbol.intercept →
      (symbolsOf sc ac rc).count s = (symbolsOf sc2 ac2 rc2).count s) :
    parse_dice sc ac rc ft ci = parse_dice sc2 ac2 rc2 ft ci := by
  refine parse_dice_count_invariant sc ac rc sc2 ac2 rc2 ft ci hothers ?_
  have hm1 : Symbol.intercept ∈ symbolsOf sc ac rc := List.count_pos_iff.mp (by omega)
  have hm2 : Symbol.intercept ∈ symbolsOf sc2 ac2 rc2 := List.count_pos_iff.mp (by omega)
  exact iff_of_true hm1 hm2

/-- Witness for C3: two raid intercept faces against one. -/
theorem single_intercept_rule_witness :
    2 ≤ (symbolsOf [] [] [[Symbol.intercept], [Symbol.intercept]]).count Symbol.intercept
      ∧ (symbolsOf [] [] [[Symbol.intercept]]).count Symbol.intercept = 1
      ∧ (∀ s : Symbol, s ≠ Symbol.intercept →
          (symbolsOf [] [] [[Symbol.intercept], [Symbol.intercept]]).count s
            = (symbolsOf [] [] [[Symbol.intercept]]).count s)
      ∧ parse_dice [] [] [[Symbol.intercept], [Symbol.intercept]] none false
          = parse_dice [] [] [[Symbol.intercept]] none false :=
  ⟨by decide, by decide, by decide,
    single_intercept_rule [] [] [[Symbol.intercept], [Symbol.intercept]] [] []
      [[Symbol.intercept]] none false (by decide) (by decide) (by decide)⟩

/-- Claim C4: every OutcomeKey returned by `parse_dice` is the
concatenation of `{count}{LETTER}` segments for the nonzero accumulator
fields in the fixed order H, B, D, K, followed by a literal `I` iff an
intercept was seen and `convert_intercepts` is false; the all-zero
outcome is the literal string `"0"` and the result is never empty. -/
theorem parse_dice_canonical_key (sc ac rc : List Face) (ft : Option ℕ) (ci : Bool)
    (k : String) (h : parse_dice sc ac rc ft ci = Except.ok k) :
    k = outcome_key_format (accOf ft ci (symbolsOf sc ac rc)) ci ∧ k ≠ "" := by
  rw [parse_dice_closed] at h
  by_cases hc : ci = true ∧ ft = none ∧ Symbol.intercept ∈ symbolsOf sc ac rc
  · rw [if_pos hc] at h
    exact Except.noConfusion h
  · rw [if_neg hc] at h
    have h2 := (Except.ok.inj h).symm
    refine ⟨h2, ?_⟩
    rw [h2]
    exact outcome_key_format_ne_empty _ _

/-- Witness for C4 at a single hit face. -/
theorem parse_dice_canonical_key_witness :
    parse_dice [[Symbol.hit]] [] [] none false = Except.ok "1H"
      ∧ ("1H" = outcome_key_format (accOf none false (symbolsOf [[Symbol.hit]] [] [])) false
          ∧ "1H" ≠ "") := by
  have hpd : parse_dice [[Symbol.hit]] [] [] none false = Except.ok "1H" := by
    rw [parse_dice_closed, if_neg (by decide)]
    rfl
  exact ⟨hpd, parse_dice_canonical_key [[Symbol.hit]] [] [] none false "1H" hpd⟩

/-- Counterexample to C5 as stated: with `convert_intercepts` true and
`fresh_targets` unset, a skirmish-only configuration is not rejected at
all — the enumeration succeeds. -/
theorem skirmish_only_unset_accepted :
    (compute_probabilities 1 0 0 none true).isOk = true := by
  rw [compute_probabilities_ok 1 0 0 none true (by decide)]
  rfl

/-- Claim C5 (amended): with `convert_intercepts` true and
`fresh_targets` unset, there is no upfront validation; the computation
fails — with the `ValueError` raised by `parse_dice` during the
enumeration — exactly when at least one assault or raid die is
requested, and is silently accepted otherwise (e.g. skirmish-only). -/
theorem unset_fresh_targets_error_iff (ns na nr : ℕ) :
    (∃ e, compute_probabilities ns na nr none true = Except.error e)
      ↔ (0 < na ∨ 0 < nr) :=
  compute_probabilities_unset_error_iff ns na nr

/-- Claim C6: a successful run returns the probability list sorted
ascending, and pairing is consistent: the i-th probability equals the
aggregated weight of the i-th key divided by the grand total, although
the two lists are sorted separately. -/
theorem compute_probabilities_sorted_and_paired (ns na nr : ℕ) (ft : Option ℕ) (ci : Bool)
    (ms : List String) (ps : List ℚ)
    (h : compute_probabilities ns na nr ft ci = Except.ok (ms, ps)) :
    List.Sorted (· ≤ ·) ps
      ∧ ps = ms.map (fun k =>
          aggWeight ns na nr ft ci k / ((2 : ℚ) ^ ns * 6 ^ (na + nr))) :=
  compute_probabilities_pairing ns na nr ft ci ms ps h

/-- Witness for C6 at the configuration of one skirmish die. -/
theorem compute_probabilities_sorted_and_paired_witness :
    ∃ ms ps, compute_probabilities 1 0 0 none false = Except.ok (ms, ps)
      ∧ List.Sorted (· ≤ ·) ps
      ∧ ps = ms.map (fun k =>
          aggWeight 1 0 0 none false k / ((2 : ℚ) ^ 1 * 6 ^ (0 + 0))) := by
  refine ⟨_, _, compute_probabilities_ok 1 0 0 none false (by decide), ?_⟩
  exact compute_probabilities_sorted_and_paired 1 0 0 none false _ _
    (compute_probabilities_ok 1 0 0 none false (by decide))

/-- Counterexample to C7 as stated: the reduced skirmish face list has
frequency weights summing to 2, not 6 (the skirmish die is modelled as
a statistically equivalent two-faced die). -/
theorem skirmish_frequency_sum_ne_six :
    (SKIRMISH_DICE.map (FACE_FREQUENCIES "skirmish")).sum ≠ 6 := by decide

/-- Claim C7 (amended): the frequency weights of the reduced unique
face lists sum to 6 for the assault and raid dice, and to 2 for the
two-face skirmish die representation. -/
theorem reduced_frequency_sums :
    (SKIRMISH_DICE.map (FACE_FREQUENCIES "skirmish")).sum = 2
      ∧ (UNIQUE_ASSAULT_DICE.map (FACE_FREQUENCIES "assault")).sum = 6
      ∧ (UNIQUE_RAID_DICE.map (FACE_FREQUENCIES "raid")).sum = 6 := by decide

/-- Counterexample to C8 as stated: the source operation has no
`max_hits` bound (nor `min_damage`, `max_keys`), so a roll of 5 hits
passes the code check while the eight-field bounds record of the spec
with `max_hits = 0` rejects it. -/
theorem evaluate_truth_table_ignores_max_hits :
    evaluate_truth_table 5 0 0 0 none none none none none = true
      ∧ evaluate_bounds_spec 5 0 0 0
          ⟨none, some 0, none, none, none, none, none, none⟩ = false := by decide

/-- Claim C8 (amended): `evaluate_truth_table` accepts five optional
bounds (min hits, max damage, min keys, min building hits, max building
hits) and returns true iff every supplied bound is satisfied, with
`none` imposing no constraint; there are no max-hits, min-damage or
max-keys bounds. -/
theorem evaluate_truth_table_iff_bounds (hits damage buildings keys : ℕ)
    (min_hits max_damage min_keys min_building_hits max_building_hits : Option ℕ) :
    evaluate_truth_table hits damage buildings keys min_hits max_damage min_keys
        min_building_hits max_building_hits = true
      ↔ ((∀ m, min_hits = some m → m ≤ hits)
          ∧ (∀ m, max_damage = some m → damage ≤ m)
          ∧ (∀ m, min_keys = some m → m ≤ keys)
          ∧ (∀ m, min_building_hits = some m → m ≤ buildings)
          ∧ (∀ m, max_building_hits = some m → buildings ≤ m)) := by
  cases min_hits <;> cases max_damage <;> cases min_keys <;> cases min_building_hits
    <;> cases max_building_hits <;> simp [evaluate_truth_table] <;> omega

/-- Claim C9: the OutcomeKey of `parse_dice` depends only on the
combined multiset of symbols across the three combinations (together
with the flags), not on which pools the faces come from: inputs with
permutation-equal flattened symbol streams resolve identically. -/
theorem parse_dice_multiset_invariant (sc ac rc sc2 ac2 rc2 : List Face)
    (ft : Option ℕ) (ci : Bool)
    (hperm : (symbolsOf sc ac rc).Perm (symbolsOf sc2 ac2 rc2)) :
    parse_dice sc ac rc ft ci = parse_dice sc2 ac2 rc2 ft ci :=
  parse_dice_count_invariant sc ac rc sc2 ac2 rc2 ft ci
    (fun s _ => hperm.count_eq s) hperm.mem_iff

/-- Witness for C9: a hit face moved from the skirmish pool to the
assault pool. -/
theorem parse_dice_multiset_invariant_witness :
    (symbolsOf [[Symbol.hit]] [] []).Perm (symbolsOf [] [[Symbol.hit]] [])
      ∧ parse_dice [[Symbol.hit]] [] [] none false
          = parse_dice [] [[Symbol.hit]] [] none false :=
  ⟨by decide,
    parse_dice_multiset_invariant [[Symbol.hit]] [] [] [] [[Symbol.hit]] []
      none false (by decide)⟩

/-- Claim C10: with `convert_intercepts` true and `fresh_targets`
unset, `parse_dice` raises the configuration error iff at least one
drawn face carries an intercept symbol; without an intercept the
invalid configuration is silently accepted and a key is returned. -/
theorem parse_dice_unset_error_iff_intercept (sc ac rc : List Face) :
    (∃ e, parse_dice sc ac rc none true = Except.error e)
      ↔ Symbol.intercept ∈ symbolsOf sc ac rc := by
  rw [parse_dice_closed]
  by_cases h : Symbol.intercept ∈ symbolsOf sc ac rc
  · rw [if_pos ⟨rfl, rfl, h⟩]
    simp [h]
  · rw [if_neg (by simp [h])]
    simp [h]

end Arcs

